import Mathlib

/-!
Verification of the core of the misc-hooks repository against its
natural-language specification.

Shallow embedding, translated from the source:
* `disposer.ts` (`makeDisposer`): a one-shot cancellation token with a LIFO
  cleanup registry.  Cleanup callbacks are modelled as abstract labels
  (natural numbers); invoking a cleanup is modelled as emitting its label,
  so the exact invocation sequence of `dispose` is the list of emitted
  labels.
* `atom.ts` (`makeAtom`): an observable value cell with subscriptions.
  Because an atom of type `Atom<T>` stores `undefined` in the `now`
  branch of `sub` (the source coerces `undefined as T`), values are
  modelled as `Option Int` where `none` plays the role of `undefined`.
  Subscriber callbacks are modelled as Lean functions returning a list of
  reentrant effects (write the value again, unsubscribe some id) together
  with an optional cleanup label; the notification pass is interpreted by
  a fuel-indexed structural interpreter that emits an event trace.
* the `useLoad` hook of the repository (async-load state machine): a
  world-state transition system with disposer generations identified by
  numeric ids, promise settlement steps, and the tri-state loading result.
-/

namespace MiscHooks

/-! ## Disposer (disposer.ts)

`makeDisposer` in the source:
```
const disposeFns = []
const abortController = new AbortController()
addDispose(fn): if (!fn) return; if aborted then fn() else disposeFns.push(fn)
dispose(): if aborted then return; abort(); for fn of disposeFns.slice().reverse() fn()
```
`DisposerState` carries the `aborted` flag and the registered cleanup
labels in push order; each operation returns the new state together with
the list of cleanup labels it invoked, in order. -/

structure DisposerState where
  aborted : Bool
  disposeFns : List Nat
deriving DecidableEq, Repr

def makeDisposer : DisposerState := ⟨false, []⟩

/-- `addDispose(fn)`: `none` models a falsy argument (no-op); if already
aborted the cleanup is invoked immediately, otherwise it is appended. -/
def addDispose (d : DisposerState) (f : Option Nat) : DisposerState × List Nat :=
  match f with
  | none => (d, [])
  | some l => if d.aborted then (d, [l]) else ({d with disposeFns := d.disposeFns ++ [l]}, [])

/-- `dispose()`: a second call is a no-op; the first call aborts and runs
the registered cleanups in reverse registration order. -/
def dispose (d : DisposerState) : DisposerState × List Nat :=
  if d.aborted then (d, [])
  else ({d with aborted := true}, d.disposeFns.reverse)

/-- Register a whole list of cleanups through `addDispose`, in order. -/
def addAll (d : DisposerState) (fs : List Nat) : DisposerState :=
  fs.foldl (fun acc l => (addDispose acc (some l)).1) d

theorem addAll_not_aborted (fs : List Nat) :
    ∀ acc : List Nat, addAll ⟨false, acc⟩ fs = ⟨false, acc ++ fs⟩ := by
  induction fs with
  | nil => intro acc; simp [addAll]
  | cons l rest ih =>
      intro acc
      have h1 : addDispose ⟨false, acc⟩ (some l) = (⟨false, acc ++ [l]⟩, []) := by
        simp [addDispose]
      have h2 : addAll ⟨false, acc⟩ (l :: rest) = addAll ⟨false, acc ++ [l]⟩ rest := by
        simp [addAll, List.foldl_cons, h1]
      rw [h2, ih (acc ++ [l])]
      simp

/-- C7: registering cleanups `fs` (for the spec's scenario, `[A, B, C]`) on a
fresh disposer and then calling `dispose()` invokes exactly the labels
`fs.reverse` (i.e. `[C, B, A]`, LIFO, each registered cleanup exactly once
— `count` is preserved), and a second `dispose()` invokes nothing. -/
theorem disposer_lifo_idempotent (fs : List Nat) :
    (dispose (addAll makeDisposer fs)).2 = fs.reverse ∧
    (dispose (dispose (addAll makeDisposer fs)).1).2 = [] ∧
    (∀ l, (dispose (addAll makeDisposer fs)).2.count l = fs.count l) := by
  have h : addAll makeDisposer fs = ⟨false, fs⟩ := by
    have := addAll_not_aborted fs []
    simpa [makeDisposer] using this
  rw [h]
  refine ⟨by simp [dispose], by simp [dispose], ?_⟩
  intro l
  simp [dispose, List.count_reverse]

/-! ## Atom (atom.ts)

The source:
```
let value = initial as T
let count = 0
const subscribers: Record<number, {subscriber, cleanup, skip?}> = Object.create(null)
get value() { return value }
set value(val) {
  const old = value
  value = val
  for (const pair of Object.values(subscribers))
    if (!pair.skip?.(val, old)) {
      pair.cleanup?.()
      pair.cleanup = undefined
      pair.cleanup = pair.subscriber(val, old)
    }
}
sub(subscriber, {now = false, skip} = {}) {
  const id = count++
  subscribers[id] = {subscriber,
    cleanup: now && !skip?.(value, undefined as T) ? subscriber(value, undefined as T) : undefined,
    skip}
  return () => { subscribers[id]?.cleanup?.(); delete subscribers[id] }
}
```
Modelling decisions, all read off the source:
* `Object.values(subscribers)` keys are the monotonically increasing ids,
  so iteration is in subscription order, and the expression is evaluated
  once at loop start: the pass iterates a snapshot of the record
  references present at that moment.  Each record object aliases the map
  entry, so a record deleted mid-pass is still visited.  The heap of
  records is modelled as an association list `recs` keyed by id where
  deletion marks the record dead (`alive := false`) instead of removing
  it: ids are never reused, so a heap lookup by id is exactly the JS
  object reference, and the snapshot is the list of ids alive when the
  pass starts.
* A subscriber callback is a Lean function from `(val, old)` to a list of
  reentrant effects (`setVal` writes the value again, which recursively
  runs a full pass; `unsub target` invokes the unsubscribe closure of
  subscription `target`) plus the returned cleanup, an optional label.
* Invoked callbacks and cleanups are recorded in an event trace.  A
  `call` event also records `cur`, the stored value at the instant the
  callback is invoked (what `atom.value` reads inside the callback). -/

/-- Atom values: `none` models JS `undefined` (the value of an atom made
with no initial value, and the `old` argument of a `now` call). -/
abbrev AVal := Option Int

/-- Reentrant effects a subscriber callback may perform. -/
inductive AEff where
  | setVal (v : AVal)
  | unsub (target : Nat)

/-- One subscriber record of the `subscribers` map. -/
structure SubRec where
  beh : AVal → AVal → List AEff × Option Nat
  cleanup : Option Nat
  skip : Option (AVal → AVal → Bool)
  alive : Bool

structure AtomState where
  value : AVal
  count : Nat
  recs : List (Nat × SubRec)

/-- `makeAtom(initial?)`; `makeAtomA none` is `makeAtom()`. -/
def makeAtomA (initial : AVal) : AtomState := ⟨initial, 0, []⟩

/-- Events of a run: a callback invocation (with the arguments it received
and the stored value it would read), or a cleanup invocation (tagged with
the id of the record whose cleanup slot ran). -/
inductive AEv where
  | call (id : Nat) (val old cur : AVal)
  | cleanupRun (id : Nat) (l : Nat)
deriving DecidableEq, Repr

def lookupRec : List (Nat × SubRec) → Nat → Option SubRec
  | [], _ => none
  | p :: rest, id => if p.1 = id then some p.2 else lookupRec rest id

def getRec (s : AtomState) (id : Nat) : Option SubRec := lookupRec s.recs id

def updRecL (l : List (Nat × SubRec)) (id : Nat) (f : SubRec → SubRec) : List (Nat × SubRec) :=
  l.map (fun p => if p.1 = id then (p.1, f p.2) else p)

def updRec (s : AtomState) (id : Nat) (f : SubRec → SubRec) : AtomState :=
  {s with recs := updRecL s.recs id f}

/-- The ids `Object.values(subscribers)` would enumerate: the live records,
in subscription order. -/
def aliveIds (s : AtomState) : List Nat :=
  (s.recs.filter (fun p => p.2.alive)).map (fun p => p.1)

def cleanupEvs (id : Nat) (c : Option Nat) : List AEv :=
  match c with
  | none => []
  | some l => [AEv.cleanupRun id l]

/-- Whether `pair.skip?.(val, old)` is truthy. -/
def skipTrue (r : SubRec) (v old : AVal) : Bool :=
  (r.skip.map (fun sk => sk v old)).getD false

/-- The unsubscribe closure returned by `sub` for id `target`:
`subscribers[id]?.cleanup?.(); delete subscribers[id]`.  Note the source
runs the pending cleanup but does not clear the `cleanup` field before
deleting the map entry. -/
def unsubStep (s : AtomState) (target : Nat) : AtomState × List AEv :=
  match getRec s target with
  | none => (s, [])
  | some r =>
      if r.alive then
        (updRec s target (fun rr => {rr with alive := false}), cleanupEvs target r.cleanup)
      else (s, [])

/-- Jobs of the atom interpreter: run the value setter, visit the rest of
a snapshot during a pass, or run a callback's remaining effects. -/
inductive AJob where
  | setV (v : AVal)
  | visit (ids : List Nat) (v old : AVal)
  | effs (es : List AEff)

/-- Fuel-indexed interpreter of the atom.  Every recursive call consumes
one unit of fuel, so the recursion is structural on `fuel`; `none` means
the fuel ran out.  Each clause is a direct transcription of the value
setter, the loop body, and the effects a callback performs. -/
def ainterp : Nat → AtomState → AJob → Option (AtomState × List AEv)
  | 0, _, _ => none
  | f + 1, s, .setV v =>
      ainterp f {s with value := v} (.visit (aliveIds s) v s.value)
  | _ + 1, s, .visit [] _ _ => some (s, [])
  | f + 1, s, .visit (id :: rest) v old =>
      match getRec s id with
      | none => ainterp f s (.visit rest v old)
      | some pair =>
          if skipTrue pair v old then ainterp f s (.visit rest v old)
          else
            let ev1 := cleanupEvs id pair.cleanup
            let s1 := updRec s id (fun r => {r with cleanup := none})
            let res := pair.beh v old
            match ainterp f s1 (.effs res.1) with
            | none => none
            | some (s2, ev2) =>
                let s3 := updRec s2 id (fun r => {r with cleanup := res.2})
                match ainterp f s3 (.visit rest v old) with
                | none => none
                | some (s4, ev3) => some (s4, ev1 ++ AEv.call id v old s.value :: (ev2 ++ ev3))
  | _ + 1, s, .effs [] => some (s, [])
  | f + 1, s, .effs (.setVal v :: rest) =>
      match ainterp f s (.setV v) with
      | none => none
      | some (s1, ev1) =>
          match ainterp f s1 (.effs rest) with
          | none => none
          | some (s2, ev2) => some (s2, ev1 ++ ev2)
  | f + 1, s, .effs (.unsub t :: rest) =>
      match unsubStep s t with
      | (s1, ev1) =>
          match ainterp f s1 (.effs rest) with
          | none => none
          | some (s2, ev2) => some (s2, ev1 ++ ev2)

/-- `atom.value = v` with the given fuel. -/
def setValueF (fuel : Nat) (s : AtomState) (v : AVal) : Option (AtomState × List AEv) :=
  ainterp fuel s (.setV v)

/-- `atom.sub(beh, {now, skip})`: allocate the id, optionally run the
`now` call (against the state in which the record is not yet registered,
as in the source: the record literal is built after `subscriber(value,
undefined)` returns), then register the record.  Returns the new state,
the events of the `now` call, and the allocated id. -/
def subF (fuel : Nat) (s : AtomState) (beh : AVal → AVal → List AEff × Option Nat)
    (now : Bool) (skip : Option (AVal → AVal → Bool)) :
    Option (AtomState × List AEv × Nat) :=
  let id := s.count
  let s0 : AtomState := {s with count := s.count + 1}
  if now && !((skip.map (fun sk => sk s0.value none)).getD false) then
    let res := beh s0.value none
    match ainterp fuel s0 (.effs res.1) with
    | none => none
    | some (s1, ev1) =>
        some ({s1 with recs := s1.recs ++ [(id, ⟨beh, res.2, skip, true⟩)]},
          AEv.call id s0.value none s0.value :: ev1, id)
  else
    some ({s0 with recs := s0.recs ++ [(id, ⟨beh, none, skip, true⟩)]}, [], id)

/-! ### Reentrant write scenario (C3) -/

/-- Subscriber `s1` of the reentrant scenario: on receiving new value `1`
it sets `atom.value = 2`, otherwise it does nothing; it never returns a
cleanup. -/
def s1behC3 : AVal → AVal → List AEff × Option Nat :=
  fun v _ => (if v = some 1 then [AEff.setVal (some 2)] else [], none)

/-- Subscriber `s2` of the reentrant scenario: no side effects. -/
def s2behC3 : AVal → AVal → List AEff × Option Nat := fun _ _ => ([], none)

/-- The reentrant scenario, built through the public API: an atom with
value `0`, subscribe `s1` then `s2`, then set `atom.value = 1`; the
result is the event trace of the write together with the final value. -/
def c3Run : Option (List AEv × AVal) :=
  (subF 1 (makeAtomA (some 0)) s1behC3 false none).bind fun a =>
  (subF 1 a.1 s2behC3 false none).bind fun b =>
  (setValueF 10 b.1 (some 1)).map fun r => (r.2, r.1.value)

/-- C3: with subscribers `s1` (which sets `atom.value = 2` exactly when it
receives new value `1`) and `s2` (no side effects), the write
`atom.value = 1` produces exactly the call sequence `s1(1,0)`, `s1(2,1)`,
`s2(2,1)`, `s2(1,0)`: the nested write's full notification pass completes
before the outer pass resumes with the outer old/new pair (the final
`s2(1,0)` call observes stored value `2`, and the atom ends at `2`). -/
theorem atom_reentrant_order :
    c3Run = some ([AEv.call 0 (some 1) (some 0) (some 1),
                   AEv.call 0 (some 2) (some 1) (some 2),
                   AEv.call 1 (some 2) (some 1) (some 2),
                   AEv.call 1 (some 1) (some 0) (some 2)], some 2) := by
  decide

/-! ### Snapshot semantics scenario (C10) -/

/-- Subscriber that unconditionally unsubscribes subscription `1`. -/
def unsubBehC10 : AVal → AVal → List AEff × Option Nat :=
  fun _ _ => ([AEff.unsub 1], none)

/-- Passive subscriber that returns a cleanup labelled `9`. -/
def passiveBehC10 : AVal → AVal → List AEff × Option Nat := fun _ _ => ([], some 9)

/-- The snapshot scenario: an atom with value `0`; subscriber `0`
unsubscribes subscriber `1` from inside its callback; subscriber `1` is
registered before the write.  Run `atom.value = 1`, then `atom.value = 2`,
returning both traces. -/
def c10Run : Option (List AEv × List AEv) :=
  (subF 1 (makeAtomA (some 0)) unsubBehC10 false none).bind fun a =>
  (subF 1 a.1 passiveBehC10 false none).bind fun b =>
  (setValueF 10 b.1 (some 1)).bind fun r1 =>
  (setValueF 10 r1.1 (some 2)).map fun r2 => (r1.2, r2.2)

/-- C10: during the first pass, subscriber `0` unsubscribes the
not-yet-visited subscriber `1`, yet subscriber `1` is still invoked in
that same pass (the visited set was fixed when the pass started by
`Object.values`); the removal takes effect for the second write, whose
trace invokes only subscriber `0`. -/
theorem atom_pass_snapshot :
    c10Run = some ([AEv.call 0 (some 1) (some 0) (some 1),
                    AEv.call 1 (some 1) (some 0) (some 1)],
                   [AEv.call 0 (some 2) (some 1) (some 2)]) := by
  decide

/-! ### The notification pass for passive subscribers (C5, C8)

`visitContrib t id v old` is what the loop body contributes to the event
trace for subscription `id` when every callback is passive (no reentrant
effects), computed against the state `t` the pass started from;
`passEvs` strings the contributions together in visit order. -/

def visitContrib (t : AtomState) (id : Nat) (v old : AVal) : List AEv :=
  match getRec t id with
  | none => []
  | some r =>
      if skipTrue r v old then []
      else cleanupEvs id r.cleanup ++ [AEv.call id v old t.value]

def passEvs (t : AtomState) (ids : List Nat) (v old : AVal) : List AEv :=
  match ids with
  | [] => []
  | id :: rest => visitContrib t id v old ++ passEvs t rest v old

theorem lookupRec_updRecL_ne (id j : Nat) (f : SubRec → SubRec) (h : j ≠ id) :
    ∀ l : List (Nat × SubRec), lookupRec (updRecL l id f) j = lookupRec l j := by
  intro l
  induction l with
  | nil => rfl
  | cons p rest ih =>
      simp only [updRecL, List.map_cons]
      by_cases hp : p.1 = id
      · rw [if_pos hp]
        simp only [lookupRec]
        have hj : ¬ p.1 = j := fun hh => h (by rw [← hh, hp])
        rw [if_neg hj, if_neg hj]
        simpa [updRecL] using ih
      · rw [if_neg hp]
        simp only [lookupRec]
        by_cases hj : p.1 = j
        · rw [if_pos hj, if_pos hj]
        · rw [if_neg hj, if_neg hj]
          simpa [updRecL] using ih

theorem getRec_updRec_ne (s : AtomState) (id j : Nat) (f : SubRec → SubRec) (h : j ≠ id) :
    getRec (updRec s id f) j = getRec s j :=
  lookupRec_updRecL_ne id j f h s.recs

theorem lookupRec_mem : ∀ (l : List (Nat × SubRec)) (id : Nat) (r : SubRec),
    lookupRec l id = some r → (id, r) ∈ l := by
  intro l
  induction l with
  | nil => intro id r h; simp [lookupRec] at h
  | cons p rest ih =>
      intro id r h
      simp only [lookupRec] at h
      by_cases hp : p.1 = id
      · rw [if_pos hp] at h
        injection h with h
        have : p = (id, r) := by
          cases p
          simp only at hp h
          rw [hp, h]
        rw [← this]
        exact List.mem_cons_self _ _
      · rw [if_neg hp] at h
        exact List.mem_cons_of_mem _ (ih id r h)

theorem updRec_value (s : AtomState) (id : Nat) (f : SubRec → SubRec) :
    (updRec s id f).value = s.value := rfl

theorem passEvs_congr (t t2 : AtomState) (v old : AVal) (hv : t2.value = t.value) :
    ∀ ids : List Nat, (∀ id ∈ ids, getRec t2 id = getRec t id) →
      passEvs t2 ids v old = passEvs t ids v old := by
  intro ids
  induction ids with
  | nil => intro _; rfl
  | cons id rest ih =>
      intro h
      have h1 : visitContrib t2 id v old = visitContrib t id v old := by
        simp only [visitContrib, h id (List.mem_cons_self _ _), hv]
      simp only [passEvs, h1, ih (fun j hj => h j (List.mem_cons_of_mem _ hj))]

theorem mem_passEvs (t : AtomState) (v old : AVal) (e : AEv) :
    ∀ ids : List Nat, e ∈ passEvs t ids v old →
      ∃ id, id ∈ ids ∧ e ∈ visitContrib t id v old := by
  intro ids
  induction ids with
  | nil => intro h; simp [passEvs] at h
  | cons id rest ih =>
      intro h
      simp only [passEvs, List.mem_append] at h
      rcases h with h | h
      · exact ⟨id, List.mem_cons_self _ _, h⟩
      · obtain ⟨j, hj, hm⟩ := ih h
        exact ⟨j, List.mem_cons_of_mem _ hj, hm⟩

theorem visitContrib_call_mem (t : AtomState) (id : Nat) (v old : AVal)
    (i : Nat) (w o c : AVal) (h : AEv.call i w o c ∈ visitContrib t id v old) :
    i = id ∧ w = v ∧ o = old ∧ c = t.value := by
  unfold visitContrib at h
  rcases hrec : getRec t id with _ | r <;> rw [hrec] at h
  · simp at h
  · have h2 : AEv.call i w o c ∈
        (if skipTrue r v old then [] else cleanupEvs id r.cleanup ++ [AEv.call id v old t.value]) := h
    by_cases hsk : skipTrue r v old
    · rw [if_pos hsk] at h2; simp at h2
    · rw [if_neg hsk] at h2
      rcases hcl : r.cleanup with _ | l <;> rw [hcl] at h2 <;>
        simp [cleanupEvs] at h2 <;> tauto

theorem visitContrib_cleanup_mem (t : AtomState) (id : Nat) (v old : AVal)
    (i l : Nat) (h : AEv.cleanupRun i l ∈ visitContrib t id v old) : i = id := by
  unfold visitContrib at h
  rcases hrec : getRec t id with _ | r <;> rw [hrec] at h
  · simp at h
  · have h2 : AEv.cleanupRun i l ∈
        (if skipTrue r v old then [] else cleanupEvs id r.cleanup ++ [AEv.call id v old t.value]) := h
    by_cases hsk : skipTrue r v old
    · rw [if_pos hsk] at h2; simp at h2
    · rw [if_neg hsk] at h2
      rcases hcl : r.cleanup with _ | l2 <;>
        (rw [hcl] at h2; simp [cleanupEvs] at h2)
      tauto

theorem visitContrib_skip (t : AtomState) (id : Nat) (v old : AVal) (r : SubRec)
    (h : getRec t id = some r) (hs : skipTrue r v old = true) :
    visitContrib t id v old = [] := by
  simp [visitContrib, h, hs]

theorem mem_aliveIds (s : AtomState) (id : Nat) (r : SubRec)
    (h : getRec s id = some r) (ha : r.alive = true) : id ∈ aliveIds s := by
  have hm : (id, r) ∈ s.recs := lookupRec_mem _ _ _ h
  simp only [aliveIds, List.mem_map]
  exact ⟨(id, r), List.mem_filter.2 ⟨hm, ha⟩, rfl⟩

/-- Running the visiting loop over a snapshot `ids` of pairwise distinct
ids whose records all have passive callbacks (no reentrant effects)
succeeds with fuel `f + ids.length + 1` for any `f`, emits exactly the
contributions of the visited records computed against the starting state,
preserves the stored value, leaves records outside the snapshot
untouched, and leaves a visited-but-skipped record entirely unchanged. -/
theorem visit_passive (v old : AVal) :
    ∀ (ids : List Nat) (f : Nat) (s : AtomState),
      ids.Nodup →
      (∀ id ∈ ids, ∀ r, getRec s id = some r → ∀ w o, (r.beh w o).1 = []) →
      ∃ t, ainterp (f + ids.length + 1) s (.visit ids v old) = some (t, passEvs s ids v old) ∧
        t.value = s.value ∧
        (∀ j, j ∉ ids → getRec t j = getRec s j) ∧
        (∀ j ∈ ids, ∀ r, getRec s j = some r → skipTrue r v old = true → getRec t j = some r) := by
  intro ids
  induction ids with
  | nil =>
      intro f s _ _
      exact ⟨s, by simp [ainterp, passEvs], rfl, fun j _ => rfl, fun j hj => by simp at hj⟩
  | cons id rest ih =>
      intro f s hnd hp
      have hndr : rest.Nodup := hnd.of_cons
      have hnotmem : id ∉ rest := by
        have := List.nodup_cons.1 hnd
        exact this.1
      have hfuel : f + (id :: rest).length + 1 = (f + rest.length + 1) + 1 := by
        simp [List.length_cons]
        omega
      rw [hfuel]
      rcases hrec : getRec s id with _ | pair
      · -- record vanished (cannot happen for snapshot ids, but the code guards with ?.)
        obtain ⟨t, hrun, hv, hout, hskip⟩ := ih f s hndr
          (fun j hj r hr => hp j (List.mem_cons_of_mem _ hj) r hr)
        refine ⟨t, ?_, hv, ?_, ?_⟩
        · simp only [ainterp, hrec]
          rw [hrun]
          simp [passEvs, visitContrib, hrec]
        · intro j hj
          exact hout j (fun hm => hj (List.mem_cons_of_mem _ hm))
        · intro j hj r hr hs
          rcases List.mem_cons.1 hj with hj | hj
          · rw [hj] at hr; rw [hr] at hrec; cases hrec
          · exact hskip j hj r hr hs
      · cases hsk : skipTrue pair v old with
        | true =>
          obtain ⟨t, hrun, hv, hout, hskip⟩ := ih f s hndr
            (fun j hj r hr => hp j (List.mem_cons_of_mem _ hj) r hr)
          refine ⟨t, ?_, hv, ?_, ?_⟩
          · simp only [ainterp, hrec, hsk, if_true]
            rw [hrun]
            simp [passEvs, visitContrib, hrec, hsk]
          · intro j hj
            exact hout j (fun hm => hj (List.mem_cons_of_mem _ hm))
          · intro j hj r hr hs
            rcases List.mem_cons.1 hj with hj | hj
            · subst hj
              rw [hr] at hrec
              injection hrec with hrec
              rw [hout j hnotmem, hr, hrec]
            · exact hskip j hj r hr hs
        | false =>
          -- visited branch: run the pending cleanup, clear it, invoke the
          -- callback (no effects since it is passive), store the returned
          -- cleanup, continue with the rest of the snapshot
          have hbeh : (pair.beh v old).1 = [] := hp id (List.mem_cons_self _ _) pair hrec v old
          have hget3 : ∀ j, j ≠ id →
              getRec (updRec (updRec s id (fun r => {r with cleanup := none})) id
                (fun r => {r with cleanup := (pair.beh v old).2})) j = getRec s j := by
            intro j hj
            rw [getRec_updRec_ne _ _ _ _ hj, getRec_updRec_ne _ _ _ _ hj]
          obtain ⟨t, hrun, hv, hout, hskip⟩ := ih f
            (updRec (updRec s id (fun r => {r with cleanup := none})) id
              (fun r => {r with cleanup := (pair.beh v old).2})) hndr
            (fun j hj r hr => by
              rw [hget3 j (fun hh => hnotmem (hh ▸ hj))] at hr
              exact hp j (List.mem_cons_of_mem _ hj) r hr)
          have hcongr : passEvs (updRec (updRec s id (fun r => {r with cleanup := none})) id
              (fun r => {r with cleanup := (pair.beh v old).2})) rest v old
              = passEvs s rest v old :=
            passEvs_congr s (updRec (updRec s id (fun r => {r with cleanup := none})) id
                (fun r => {r with cleanup := (pair.beh v old).2})) v old rfl rest
              (fun j hj => hget3 j (fun hh => hnotmem (hh ▸ hj)))
          refine ⟨t, ?_, by exact hv, ?_, ?_⟩
          · simp only [ainterp, hrec, hsk, Bool.false_eq_true, if_false]
            rw [hbeh]
            simp only [ainterp]
            rw [hrun, hcongr]
            simp [passEvs, visitContrib, hrec, hsk]
          · intro j hj
            have hj1 : j ∉ rest := fun hm => hj (List.mem_cons_of_mem _ hm)
            have hj2 : j ≠ id := fun hh => hj (hh ▸ List.mem_cons_self _ _)
            rw [hout j hj1, hget3 j hj2]
          · intro j hj r hr hs
            rcases List.mem_cons.1 hj with hj | hj
            · subst hj
              rw [hr] at hrec
              injection hrec with hrec
              rw [hrec] at hs
              rw [hs] at hsk
              cases hsk
            · have hj2 : j ≠ id := fun hh => hnotmem (hh ▸ hj)
              exact hskip j hj r (by rw [hget3 j hj2]; exact hr) hs

/-- Well-formedness of an atom state: subscription ids are pairwise
distinct (the source allocates them from a strictly increasing counter). -/
abbrev WFA (s : AtomState) : Prop := (s.recs.map (fun p => p.1)).Nodup

/-- All subscriber callbacks are passive: they perform no reentrant
effect (they may still return cleanups). -/
def AllPassive (s : AtomState) : Prop :=
  ∀ p ∈ s.recs, ∀ w o, ((p.2.beh w o).1 : List AEff) = []

theorem aliveIds_nodup (s : AtomState) (hwf : WFA s) : (aliveIds s).Nodup :=
  List.Nodup.sublist (List.Sublist.map _ (List.filter_sublist _)) hwf

/-- C5: for every well-formed atom whose subscribers are passive and every
write `atom.value = v` (no relation between `v` and the old value is
assumed, so reference-equal writes included), the setter succeeds, the
stored value ends (and, per the trace, already is during every callback)
equal to `v`, and the emitted trace is exactly the contribution of each
live record in subscription order: for each non-skipped subscriber its
pending cleanup followed by `call id v old`, where every call event
carries the new value `v`, the old value, and reads back `v` as the
current stored value. -/
theorem atom_set_notifies (s : AtomState) (v : AVal) (f : Nat)
    (hwf : WFA s) (hp : AllPassive s) :
    ∃ t, setValueF (f + (aliveIds s).length + 2) s v
        = some (t, passEvs {s with value := v} (aliveIds s) v s.value) ∧
      t.value = v ∧
      ∀ i w o c, AEv.call i w o c ∈ passEvs {s with value := v} (aliveIds s) v s.value →
        i ∈ aliveIds s ∧ w = v ∧ o = s.value ∧ c = v := by
  obtain ⟨t, hrun, hv, _, _⟩ := visit_passive v s.value (aliveIds s) f {s with value := v}
    (aliveIds_nodup s hwf)
    (fun id _ r hr w o => hp (id, r) (lookupRec_mem _ _ _ hr) w o)
  refine ⟨t, ?_, by exact hv, ?_⟩
  · rw [show f + (aliveIds s).length + 2 = (f + (aliveIds s).length + 1) + 1 from rfl]
    simp only [setValueF, ainterp]
    exact hrun
  · intro i w o c hmem
    obtain ⟨id, hid, hc⟩ := mem_passEvs _ _ _ _ _ hmem
    obtain ⟨h1, h2, h3, h4⟩ := visitContrib_call_mem _ _ _ _ _ _ _ _ hc
    exact ⟨h1 ▸ hid, h2, h3, h4⟩

/-- Concrete witness atom for C5: value `0`, three passive subscribers in
order (one with a pending cleanup, one with a skip predicate that does
not fire on the write below). -/
def c5Wit : AtomState :=
  ⟨some 0, 3,
    [(0, ⟨fun _ _ => ([], none), none, none, true⟩),
     (1, ⟨fun _ _ => ([], some 4), some 4, none, true⟩),
     (2, ⟨fun _ _ => ([], none), none, some (fun w _ => w == some 9), true⟩)]⟩

theorem atom_set_notifies_witness :
    ∃ t, setValueF (0 + (aliveIds c5Wit).length + 2) c5Wit (some 0)
        = some (t, passEvs {c5Wit with value := some 0} (aliveIds c5Wit) (some 0) c5Wit.value) ∧
      t.value = some 0 ∧
      ∀ i w o c, AEv.call i w o c ∈
          passEvs {c5Wit with value := some 0} (aliveIds c5Wit) (some 0) c5Wit.value →
        i ∈ aliveIds c5Wit ∧ w = some 0 ∧ o = c5Wit.value ∧ c = some 0 :=
  atom_set_notifies c5Wit (some 0) 0 (by decide)
    (by
      intro p hp w o
      simp only [c5Wit, List.mem_cons, List.not_mem_nil, or_false] at hp
      rcases hp with rfl | rfl | rfl <;> rfl)

/-- C8: for a well-formed atom with passive subscribers, if subscription
`id` is registered and alive with skip predicate `sk`, and the write
`atom.value = v` satisfies `sk v old = true` for the old value, then the
pass succeeds, the record of `id` is unchanged afterwards (in particular
its pending cleanup is retained), and the trace contains no call event
and no cleanup event for `id`. -/
theorem atom_skip_gating (s : AtomState) (v : AVal) (f : Nat) (id : Nat) (r : SubRec)
    (sk : AVal → AVal → Bool) (hwf : WFA s) (hp : AllPassive s)
    (hr : getRec s id = some r) (halive : r.alive = true)
    (hskip : r.skip = some sk) (hsk : sk v s.value = true) :
    ∃ t tr, setValueF (f + (aliveIds s).length + 2) s v = some (t, tr) ∧
      getRec t id = some r ∧
      (∀ w o c, AEv.call id w o c ∉ tr) ∧
      (∀ l, AEv.cleanupRun id l ∉ tr) := by
  have hskt : skipTrue r v s.value = true := by
    simp [skipTrue, hskip, hsk]
  have hmem : id ∈ aliveIds s := mem_aliveIds s id r hr halive
  obtain ⟨t, hrun, _, _, hkeep⟩ := visit_passive v s.value (aliveIds s) f {s with value := v}
    (aliveIds_nodup s hwf)
    (fun j _ r2 hr2 w o => hp (j, r2) (lookupRec_mem _ _ _ hr2) w o)
  refine ⟨t, passEvs {s with value := v} (aliveIds s) v s.value, ?_, ?_, ?_, ?_⟩
  · rw [show f + (aliveIds s).length + 2 = (f + (aliveIds s).length + 1) + 1 from rfl]
    simp only [setValueF, ainterp]
    exact hrun
  · exact hkeep id hmem r hr hskt
  · intro w o c hin
    obtain ⟨j, _, hc⟩ := mem_passEvs _ _ _ _ _ hin
    obtain ⟨h1, _, _, _⟩ := visitContrib_call_mem _ _ _ _ _ _ _ _ hc
    rw [h1] at hc
    rw [visitContrib_skip {s with value := v} j v s.value r (h1 ▸ hr) hskt] at hc
    simp at hc
  · intro l hin
    obtain ⟨j, _, hc⟩ := mem_passEvs _ _ _ _ _ hin
    have h1 := visitContrib_cleanup_mem _ _ _ _ _ _ hc
    rw [h1] at hc
    rw [visitContrib_skip {s with value := v} j v s.value r (h1 ▸ hr) hskt] at hc
    simp at hc

/-- Skip predicate of the C8 witness: true when the new value is even. -/
def c8Skip : AVal → AVal → Bool :=
  fun n _ => match n with
  | some k => k % 2 == 0
  | none => false

/-- Record of the C8 witness: passive callback, pending cleanup `7`,
skip-even predicate. -/
def c8Rec : SubRec := ⟨fun _ _ => ([], none), some 7, some c8Skip, true⟩

/-- Concrete witness atom for C8: value `1`, one subscriber `c8Rec`. -/
def c8Wit : AtomState := ⟨some 1, 1, [(0, c8Rec)]⟩

theorem atom_skip_gating_witness :
    ∃ t tr, setValueF (0 + (aliveIds c8Wit).length + 2) c8Wit (some 4) = some (t, tr) ∧
      getRec t 0 = some c8Rec ∧
      (∀ w o c, AEv.call 0 w o c ∉ tr) ∧
      (∀ l, AEv.cleanupRun 0 l ∉ tr) :=
  atom_skip_gating c8Wit (some 4) 0 0 c8Rec c8Skip (by decide)
    (by
      intro p hp w o
      simp only [c8Wit, List.mem_cons, List.not_mem_nil, or_false] at hp
      rcases hp with rfl
      rfl)
    rfl rfl rfl rfl

/-! ## Load Controller (the `useLoad` hook)

The source (per-invocation wrapper produced by `loadAbortable(fn)`):
```
if (disposerRef.current.signal.aborted)
  return fn({signal: disposerRef.current.signal, addDispose: disposerRef.current.addDispose}, ...params)
disposerRef.current.dispose()
const disposer = disposerRef.current = makeDisposer()
setState({loading: true})
try {
  const result = fn({signal: disposer.signal, addDispose: disposer.addDispose}, ...params)
  if (typeof result?.then === 'function') return loadingRef.current = (async () => {
    try {
      const data = await result
      if (!disposer.signal.aborted) setState({data, loading: false})
      return data
    } catch (error) {
      if (!disposer.signal.aborted) setState({error, loading: false})
      throw error
    } finally {
      if (!disposer.signal.aborted) loadingRef.current = undefined
    }
  })()
  if (!disposer.signal.aborted) {
    loadingRef.current = undefined
    setState({data: result as T, loading: false})
  }
  return result
} catch (error) {
  if (!disposer.signal.aborted) setState({error, loading: false})
  throw error
}
```
Modelling decisions:
* Disposers are identified by numeric ids minted from a counter `nextD`;
  `signal.aborted` of disposer `i` is `i ∈ abortedD`.  The user functions
  of this development register no cleanups, so only the abort flag of a
  disposer is observable and cleanup lists are omitted here (the disposer
  itself is verified separately above).
* `state` is a record with optional `data`, optional `error` and a
  `loading` flag — the three union shapes of `LoadState` are the values
  this record actually takes; values are `Int`, errors are `Int`.
* A user function is `retF g` (returns the non-thenable `g params`),
  `throwF e` (throws synchronously), or `asyncF` (returns a promise that
  settles only when an explicit settlement step runs, like the
  externally-triggered promises of the spec's scenarios).  Promises are
  identified by ids from `nextP`; `pending` maps each unsettled promise
  to `some d` when it was wrapped in the async IIFE bound to disposer
  `d`, and to `none` when it is the raw result of the aborted-guard
  branch (no IIFE attached, so settling it never touches state).
* `resolveP`/`rejectP` run the continuation after `await result`
  settles; their second component is how the promise the wrapper
  returned settles for a direct awaiter. -/

structure LState where
  data : Option Int
  error : Option Int
  loading : Bool
deriving DecidableEq, Repr

inductive FnBeh where
  | retF (g : List Int → Int)
  | throwF (e : Int)
  | asyncF

inductive CallResult where
  | sync (v : Int)
  | thrown (e : Int)
  | promise (p : Nat)
deriving DecidableEq, Repr

structure LoadWorld where
  lstate : LState
  loadingRef : Option Nat
  current : Nat
  abortedD : List Nat
  nextD : Nat
  nextP : Nat
  pending : List (Nat × Option Nat)
deriving DecidableEq, Repr

/-- The initial hook state: `useState(() => {...})` seeded from
`getInitial`; `some (.ok v)` models a `getInitial` returning `v`,
`some (.error e)` one that throws `e`, `none` an absent `getInitial`. -/
def initLoad (getInitial : Option (Except Int Int)) : LoadWorld :=
  { lstate :=
      match getInitial with
      | none => ⟨none, none, false⟩
      | some (.ok v) => ⟨some v, none, false⟩
      | some (.error e) => ⟨none, some e, false⟩,
    loadingRef := none, current := 0, abortedD := [], nextD := 1, nextP := 0, pending := [] }

/-- One invocation of the wrapper returned by `loadAbortable(fn)`. -/
def invoke (w : LoadWorld) (fn : FnBeh) (ps : List Int) : LoadWorld × CallResult :=
  if w.current ∈ w.abortedD then
    -- aborted guard: call fn directly with the aborted disposer's view
    -- and return its result; nothing else happens
    match fn with
    | .retF g => (w, .sync (g ps))
    | .throwF e => (w, .thrown e)
    | .asyncF =>
        ({w with
            nextP := w.nextP + 1
            pending := w.pending ++ [(w.nextP, none)]},
         .promise w.nextP)
  else
    -- dispose the previous disposer, mint a fresh current one, set loading
    let w1 : LoadWorld := {w with
      abortedD := w.current :: w.abortedD
      current := w.nextD
      nextD := w.nextD + 1
      lstate := ⟨none, none, true⟩}
    match fn with
    | .asyncF =>
        -- thenable: return (and store in loadingRef) the IIFE promise,
        -- bound to the freshly minted disposer
        ({w1 with
            loadingRef := some w1.nextP
            nextP := w1.nextP + 1
            pending := w1.pending ++ [(w1.nextP, some w1.current)]},
         .promise w1.nextP)
    | .retF g =>
        -- synchronous branch: commit if this disposer is still current,
        -- return the result directly
        if w1.current ∈ w1.abortedD then (w1, .sync (g ps))
        else
          ({w1 with
              loadingRef := none
              lstate := ⟨some (g ps), none, false⟩},
           .sync (g ps))
    | .throwF e =>
        -- synchronous throw: record the error if still current, rethrow
        if w1.current ∈ w1.abortedD then (w1, .thrown e)
        else ({w1 with lstate := ⟨none, some e, false⟩}, .thrown e)

inductive SettleResult where
  | res (v : Int)
  | rej (e : Int)
  | stale
deriving DecidableEq, Repr

def findPending : List (Nat × Option Nat) → Nat → Option (Option Nat)
  | [], _ => none
  | q :: rest, p => if q.1 = p then some q.2 else findPending rest p

def removePending : List (Nat × Option Nat) → Nat → List (Nat × Option Nat)
  | [], _ => []
  | q :: rest, p => if q.1 = p then rest else q :: removePending rest p

/-- The underlying promise `p` resolves with `v`: if `p` was wrapped in
the async IIFE of disposer `d`, the continuation after `await result`
runs — commit `{data, loading: false}` and clear `loadingRef` only if `d`
is not aborted — and the wrapper's promise resolves with `v` either way;
a raw promise from the aborted-guard branch resolves with `v` and touches
nothing. -/
def resolveP (w : LoadWorld) (p : Nat) (v : Int) : LoadWorld × SettleResult :=
  match findPending w.pending p with
  | none => (w, .stale)
  | some none => ({w with pending := removePending w.pending p}, .res v)
  | some (some d) =>
      if d ∈ w.abortedD then
        ({w with pending := removePending w.pending p}, .res v)
      else
        ({w with
            pending := removePending w.pending p
            lstate := ⟨some v, none, false⟩
            loadingRef := none},
         .res v)

/-- The underlying promise `p` rejects with `e`: the catch branch records
`{error, loading: false}` only if the call's disposer is still current,
the finally branch clears `loadingRef` only if still current, and the
wrapper's promise always rejects with the original `e`. -/
def rejectP (w : LoadWorld) (p : Nat) (e : Int) : LoadWorld × SettleResult :=
  match findPending w.pending p with
  | none => (w, .stale)
  | some none => ({w with pending := removePending w.pending p}, .rej e)
  | some (some d) =>
      if d ∈ w.abortedD then
        ({w with pending := removePending w.pending p}, .rej e)
      else
        ({w with
            pending := removePending w.pending p
            lstate := ⟨none, some e, false⟩
            loadingRef := none},
         .rej e)

/-- The unmount effect cleanup: dispose the current disposer and replace
it with a fresh one. -/
def teardown (w : LoadWorld) : LoadWorld :=
  {w with
    abortedD := w.current :: w.abortedD
    current := w.nextD
    nextD := w.nextD + 1}

/-- Well-formedness of a load world: the current disposer is live, ids
below the mint counters. Holds for `initLoad` and is all the generic
theorems below need. -/
abbrev WFL (w : LoadWorld) : Prop :=
  w.current ∉ w.abortedD ∧ w.current < w.nextD ∧
  (∀ i ∈ w.abortedD, i < w.nextD) ∧ (∀ q ∈ w.pending, q.1 < w.nextP)

/-- The user function of the synchronous-commit scenario:
`fn = (d, a, b) => a + b` applied to its parameter list. -/
def addFn : List Int → Int := fun ps => ps.getD 0 0 + ps.getD 1 0

/-- C4: on any well-formed controller state, invoking the wrapper of the
synchronous `fn = (d, a, b) => a + b` with `(2, 3)` returns `5` directly
(a `.sync` result, not a promise) and leaves
`state = {data: 5, loading: false}` when the call returns. -/
theorem load_sync_commit (w : LoadWorld) (hwf : WFL w) :
    ∃ w2, invoke w (.retF addFn) [2, 3] = (w2, .sync 5) ∧
      w2.lstate = ⟨some 5, none, false⟩ := by
  obtain ⟨h1, h2, h3, _⟩ := hwf
  have hd : w.nextD ∉ w.current :: w.abortedD := by
    intro hmem
    rcases List.mem_cons.1 hmem with hh | hh
    · omega
    · exact absurd (h3 _ hh) (by omega)
  have hval : addFn [2, 3] = 5 := by decide
  refine ⟨{ lstate := ⟨some 5, none, false⟩, loadingRef := none, current := w.nextD,
            abortedD := w.current :: w.abortedD, nextD := w.nextD + 1,
            nextP := w.nextP, pending := w.pending }, ?_, rfl⟩
  simp only [invoke, if_neg h1]
  rw [if_neg (by exact hd)]
  rw [hval]

theorem load_sync_commit_witness :
    ∃ w2, invoke (initLoad none) (.retF addFn) [2, 3] = (w2, .sync 5) ∧
      w2.lstate = ⟨some 5, none, false⟩ :=
  load_sync_commit (initLoad none)
    ⟨by decide, by decide, by decide, by decide⟩

/-- A concrete world whose current disposer is aborted (the degenerate
already-torn-down situation C9 talks about). -/
def wAborted : LoadWorld :=
  { lstate := ⟨none, none, false⟩, loadingRef := none, current := 0,
    abortedD := [0], nextD := 1, nextP := 0, pending := [] }

/-- C9 counterexample: with the current disposer already aborted,
invoking the wrapper of the synchronous `fn = (d, a, b) => a + b` with
`(2, 3)` leaves the world completely unchanged — contrary to the claim,
no previous disposer is disposed, no fresh disposer is minted
(`current`, `abortedD`, `nextD` all unchanged), `loading` is never set,
and the result `5` is not committed to state. -/
theorem load_aborted_counterexample :
    (invoke wAborted (.retF addFn) [2, 3]).1 = wAborted ∧
    (invoke wAborted (.retF addFn) [2, 3]).1.lstate ≠ ⟨some 5, none, false⟩ ∧
    (invoke wAborted (.retF addFn) [2, 3]).1.lstate.loading ≠ true := by
  refine ⟨rfl, by decide, by decide⟩

/-- What the aborted-guard branch returns: `fn`'s own raw result. -/
def rawResult (w : LoadWorld) (fn : FnBeh) (ps : List Int) : CallResult :=
  match fn with
  | .retF g => .sync (g ps)
  | .throwF e => .thrown e
  | .asyncF => .promise w.nextP

/-- C9 amended: if the current disposer is already aborted when the
wrapper is invoked, the invocation short-circuits — `fn` is still invoked
(with the aborted disposer's `signal`/`addDispose`) and its raw result is
returned (a value, a throw, or its own promise, unwrapped), but the
previous disposer is not disposed, no fresh disposer is minted, `loading`
is not set, and nothing is ever committed to `state` or `loadingRef`. -/
theorem load_aborted_passthrough (w : LoadWorld) (fn : FnBeh) (ps : List Int)
    (h : w.current ∈ w.abortedD) :
    (invoke w fn ps).1.lstate = w.lstate ∧
    (invoke w fn ps).1.current = w.current ∧
    (invoke w fn ps).1.abortedD = w.abortedD ∧
    (invoke w fn ps).1.nextD = w.nextD ∧
    (invoke w fn ps).1.loadingRef = w.loadingRef ∧
    (invoke w fn ps).2 = rawResult w fn ps := by
  cases fn <;> simp [invoke, if_pos h, rawResult]

theorem load_aborted_passthrough_witness :
    (invoke wAborted .asyncF []).1.lstate = wAborted.lstate ∧
    (invoke wAborted .asyncF []).1.current = wAborted.current ∧
    (invoke wAborted .asyncF []).1.abortedD = wAborted.abortedD ∧
    (invoke wAborted .asyncF []).1.nextD = wAborted.nextD ∧
    (invoke wAborted .asyncF []).1.loadingRef = wAborted.loadingRef ∧
    (invoke wAborted .asyncF []).2 = rawResult wAborted .asyncF [] :=
  load_aborted_passthrough wAborted .asyncF [] (by decide)

/-! ### State-shape invariant (C6) -/

/-- The `LoadState` union shape: `data` and `error` never both defined,
and both absent while `loading` is true. -/
def StateOK (s : LState) : Prop :=
  (s.data = none ∨ s.error = none) ∧ (s.loading = true → s.data = none ∧ s.error = none)

/-- The externally drivable steps of a Load Controller: an invocation of
the wrapper with any user function and parameters, a resolution or
rejection of any underlying promise, or the unmount teardown. -/
inductive LOp where
  | invokeOp (fn : FnBeh) (ps : List Int)
  | resolveOp (p : Nat) (v : Int)
  | rejectOp (p : Nat) (e : Int)
  | teardownOp

def stepL (w : LoadWorld) (op : LOp) : LoadWorld :=
  match op with
  | .invokeOp fn ps => (invoke w fn ps).1
  | .resolveOp p v => (resolveP w p v).1
  | .rejectOp p e => (rejectP w p e).1
  | .teardownOp => teardown w

def runL (w : LoadWorld) (ops : List LOp) : LoadWorld := ops.foldl stepL w

theorem stepL_stateOK (w : LoadWorld) (op : LOp) (h : StateOK w.lstate) :
    StateOK (stepL w op).lstate := by
  cases op with
  | invokeOp fn ps =>
      simp only [stepL, invoke]
      split
      · cases fn <;> simpa using h
      · cases fn <;> simp only []
        · split
          · exact ⟨Or.inl rfl, fun _ => ⟨rfl, rfl⟩⟩
          · exact ⟨Or.inr rfl, by simp⟩
        · split
          · exact ⟨Or.inl rfl, fun _ => ⟨rfl, rfl⟩⟩
          · exact ⟨Or.inl rfl, by simp⟩
        · exact ⟨Or.inl rfl, by simp⟩
  | resolveOp p v =>
      simp only [stepL, resolveP]
      split
      · exact h
      · simpa using h
      · split
        · simpa using h
        · exact ⟨Or.inr rfl, by simp⟩
  | rejectOp p e =>
      simp only [stepL, rejectP]
      split
      · exact h
      · simpa using h
      · split
        · simpa using h
        · exact ⟨Or.inl rfl, by simp⟩
  | teardownOp => exact h

theorem runL_stateOK (ops : List LOp) :
    ∀ w : LoadWorld, StateOK w.lstate → StateOK (runL w ops).lstate := by
  induction ops with
  | nil => exact fun w h => h
  | cons op rest ih =>
      intro w h
      exact ih (stepL w op) (stepL_stateOK w op h)

/-- C6: starting from the initial state of `useLoad` — with no
`getInitial`, with a `getInitial` returning a value, or with a throwing
`getInitial` — and after any sequence of wrapper invocations (synchronous
or asynchronous, committing or throwing), promise settlements, and
teardowns, the exposed state always satisfies the `LoadState` shape
invariant: `data` and `error` are never both defined, and both are absent
whenever `loading` is true. -/
theorem load_state_shape (getInitial : Option (Except Int Int)) (ops : List LOp) :
    StateOK (runL (initLoad getInitial) ops).lstate := by
  have hinit : StateOK (initLoad getInitial).lstate := by
    rcases getInitial with _ | g
    · exact ⟨Or.inl rfl, by simp [initLoad]⟩
    · rcases g with e | v
      · exact ⟨Or.inl rfl, by simp [initLoad]⟩
      · exact ⟨Or.inr rfl, by simp [initLoad]⟩
  exact runL_stateOK ops (initLoad getInitial) hinit

/-! ### Supersession (C1) and error isolation (C2) -/

/-- The world after one asynchronous invocation on `w`: previous disposer
aborted, fresh disposer `w.nextD` current, loading set, the IIFE promise
`w.nextP` pending and stored in `loadingRef`. -/
def afterAsync (w : LoadWorld) : LoadWorld :=
  { lstate := ⟨none, none, true⟩
    loadingRef := some w.nextP
    current := w.nextD
    abortedD := w.current :: w.abortedD
    nextD := w.nextD + 1
    nextP := w.nextP + 1
    pending := w.pending ++ [(w.nextP, some w.nextD)] }

/-- The world after two asynchronous invocations on `w`. -/
def afterTwoAsync (w : LoadWorld) : LoadWorld :=
  { lstate := ⟨none, none, true⟩
    loadingRef := some (w.nextP + 1)
    current := w.nextD + 1
    abortedD := w.nextD :: w.current :: w.abortedD
    nextD := w.nextD + 2
    nextP := w.nextP + 2
    pending := w.pending ++ [(w.nextP, some w.nextD), (w.nextP + 1, some (w.nextD + 1))] }

theorem invoke_async (w : LoadWorld) (ps : List Int) (h : w.current ∉ w.abortedD) :
    invoke w .asyncF ps = (afterAsync w, .promise w.nextP) := by
  simp only [invoke, if_neg h]
  rfl

theorem invoke_async2 (w : LoadWorld) (ps : List Int) (hwf : WFL w) :
    invoke (afterAsync w) .asyncF ps = (afterTwoAsync w, .promise (w.nextP + 1)) := by
  obtain ⟨h1, h2, h3, _⟩ := hwf
  have hcur : (afterAsync w).current ∉ (afterAsync w).abortedD := by
    simp only [afterAsync, List.mem_cons, not_or]
    exact ⟨by omega, fun hm => absurd (h3 _ hm) (by omega)⟩
  rw [invoke_async _ ps hcur]
  simp [afterAsync, afterTwoAsync]

theorem findPending_append (l1 l2 : List (Nat × Option Nat)) (p : Nat)
    (h : ∀ q ∈ l1, q.1 ≠ p) : findPending (l1 ++ l2) p = findPending l2 p := by
  induction l1 with
  | nil => rfl
  | cons a rest ih =>
      simp only [List.cons_append, findPending]
      rw [if_neg (h a (List.mem_cons_self _ _))]
      exact ih (fun q hq => h q (List.mem_cons_of_mem _ hq))

theorem removePending_append (l1 l2 : List (Nat × Option Nat)) (p : Nat)
    (h : ∀ q ∈ l1, q.1 ≠ p) : removePending (l1 ++ l2) p = l1 ++ removePending l2 p := by
  induction l1 with
  | nil => rfl
  | cons a rest ih =>
      simp only [List.cons_append, removePending]
      rw [if_neg (h a (List.mem_cons_self _ _))]
      rw [show rest.append l2 = rest ++ l2 from rfl]
      rw [ih (fun q hq => h q (List.mem_cons_of_mem _ hq))]

theorem resolveP_superseded (w : LoadWorld) (p : Nat) (v : Int) (d : Nat)
    (hf : findPending w.pending p = some (some d)) (hd : d ∈ w.abortedD) :
    resolveP w p v = ({w with pending := removePending w.pending p}, .res v) := by
  simp only [resolveP, hf]
  rw [if_pos hd]

theorem resolveP_current (w : LoadWorld) (p : Nat) (v : Int) (d : Nat)
    (hf : findPending w.pending p = some (some d)) (hd : d ∉ w.abortedD) :
    resolveP w p v =
      ({w with
          pending := removePending w.pending p
          lstate := ⟨some v, none, false⟩
          loadingRef := none}, .res v) := by
  simp only [resolveP, hf]
  rw [if_neg hd]

theorem rejectP_superseded (w : LoadWorld) (p : Nat) (e : Int) (d : Nat)
    (hf : findPending w.pending p = some (some d)) (hd : d ∈ w.abortedD) :
    rejectP w p e = ({w with pending := removePending w.pending p}, .rej e) := by
  simp only [rejectP, hf]
  rw [if_pos hd]

/-- C1: on any well-formed controller state, invoke the wrapper
asynchronously (call A, promise `p1`), then again before A settles
(call B, promise `p2`).  Resolving A's underlying promise afterwards
resolves A's own returned promise with A's value but leaves `state`
exactly as it was (still loading — A's result is never written to
`state.data`); resolving B then sets `state = {data: v2, loading: false}`.
Symmetrically, if B resolves first and A later, the state stays at B's
committed data: A's later resolution never overwrites it. -/
theorem load_supersession (w : LoadWorld) (hwf : WFL w) (ps1 ps2 : List Int) (v1 v2 : Int) :
    ∃ p1 p2 w1 w2,
      invoke w .asyncF ps1 = (w1, .promise p1) ∧
      invoke w1 .asyncF ps2 = (w2, .promise p2) ∧
      w2.lstate = ⟨none, none, true⟩ ∧
      (resolveP w2 p1 v1).2 = .res v1 ∧
      (resolveP w2 p1 v1).1.lstate = w2.lstate ∧
      (resolveP (resolveP w2 p1 v1).1 p2 v2).1.lstate = ⟨some v2, none, false⟩ ∧
      (resolveP (resolveP w2 p1 v1).1 p2 v2).2 = .res v2 ∧
      (resolveP (resolveP w2 p2 v2).1 p1 v1).1.lstate = ⟨some v2, none, false⟩ := by
  obtain ⟨h1, h2, h3, h4⟩ := hwf
  have hne1 : ∀ q ∈ w.pending, q.1 ≠ w.nextP := fun q hq => by
    have := h4 q hq; omega
  have hne2 : ∀ q ∈ w.pending, q.1 ≠ w.nextP + 1 := fun q hq => by
    have := h4 q hq; omega
  have hfA : findPending (afterTwoAsync w).pending w.nextP = some (some w.nextD) := by
    show findPending
      (w.pending ++ [(w.nextP, some w.nextD), (w.nextP + 1, some (w.nextD + 1))]) w.nextP = _
    rw [findPending_append _ _ _ hne1]
    simp [findPending]
  have hfB : findPending (afterTwoAsync w).pending (w.nextP + 1) = some (some (w.nextD + 1)) := by
    show findPending
      (w.pending ++ [(w.nextP, some w.nextD), (w.nextP + 1, some (w.nextD + 1))]) (w.nextP + 1) = _
    rw [findPending_append _ _ _ hne2]
    simp only [findPending]
    rw [if_neg (by omega)]
    simp [findPending]
  have hdA : w.nextD ∈ (afterTwoAsync w).abortedD := by
    simp [afterTwoAsync]
  have hdB : (w.nextD + 1) ∉ (afterTwoAsync w).abortedD := by
    simp only [afterTwoAsync, List.mem_cons, not_or]
    refine ⟨by omega, by omega, fun hm => absurd (h3 _ hm) (by omega)⟩
  have hrem1 : removePending (afterTwoAsync w).pending w.nextP
      = w.pending ++ [(w.nextP + 1, some (w.nextD + 1))] := by
    show removePending
      (w.pending ++ [(w.nextP, some w.nextD), (w.nextP + 1, some (w.nextD + 1))]) w.nextP = _
    rw [removePending_append _ _ _ hne1]
    simp [removePending]
  have hrem2 : removePending (afterTwoAsync w).pending (w.nextP + 1)
      = w.pending ++ [(w.nextP, some w.nextD)] := by
    show removePending
      (w.pending ++ [(w.nextP, some w.nextD), (w.nextP + 1, some (w.nextD + 1))]) (w.nextP + 1) = _
    rw [removePending_append _ _ _ hne2]
    simp only [removePending]
    rw [if_neg (by omega)]
    simp [removePending]
  have hresA := resolveP_superseded (afterTwoAsync w) w.nextP v1 w.nextD hfA hdA
  have hfB3 : findPending
      ({afterTwoAsync w with
        pending := removePending (afterTwoAsync w).pending w.nextP}).pending
      (w.nextP + 1) = some (some (w.nextD + 1)) := by
    show findPending (removePending (afterTwoAsync w).pending w.nextP) (w.nextP + 1) = _
    rw [hrem1, findPending_append _ _ _ hne2]
    simp [findPending]
  have hresB := resolveP_current
    ({afterTwoAsync w with pending := removePending (afterTwoAsync w).pending w.nextP})
    (w.nextP + 1) v2 (w.nextD + 1) hfB3 hdB
  have hresB2 := resolveP_current (afterTwoAsync w) (w.nextP + 1) v2 (w.nextD + 1) hfB hdB
  have hfA4 : findPending
      ({afterTwoAsync w with
        pending := removePending (afterTwoAsync w).pending (w.nextP + 1)
        lstate := ⟨some v2, none, false⟩
        loadingRef := none}).pending w.nextP = some (some w.nextD) := by
    show findPending (removePending (afterTwoAsync w).pending (w.nextP + 1)) w.nextP = _
    rw [hrem2, findPending_append _ _ _ hne1]
    simp [findPending]
  have hresA4 := resolveP_superseded
    ({afterTwoAsync w with
      pending := removePending (afterTwoAsync w).pending (w.nextP + 1)
      lstate := ⟨some v2, none, false⟩
      loadingRef := none}) w.nextP v1 w.nextD hfA4 hdA
  refine ⟨w.nextP, w.nextP + 1, afterAsync w, afterTwoAsync w,
    invoke_async w ps1 h1, invoke_async2 w ps2 ⟨h1, h2, h3, h4⟩, rfl, ?_, ?_, ?_, ?_, ?_⟩
  · rw [hresA]
  · rw [hresA]
  · rw [hresA, hresB]
  · rw [hresA, hresB]
  · rw [hresB2, hresA4]

theorem load_supersession_witness :
    ∃ p1 p2 w1 w2,
      invoke (initLoad none) .asyncF [] = (w1, .promise p1) ∧
      invoke w1 .asyncF [] = (w2, .promise p2) ∧
      w2.lstate = ⟨none, none, true⟩ ∧
      (resolveP w2 p1 10).2 = .res 10 ∧
      (resolveP w2 p1 10).1.lstate = w2.lstate ∧
      (resolveP (resolveP w2 p1 10).1 p2 20).1.lstate = ⟨some 20, none, false⟩ ∧
      (resolveP (resolveP w2 p1 10).1 p2 20).2 = .res 20 ∧
      (resolveP (resolveP w2 p2 20).1 p1 10).1.lstate = ⟨some 20, none, false⟩ :=
  load_supersession (initLoad none) ⟨by decide, by decide, by decide, by decide⟩ [] [] 10 20

/-- C2: on any well-formed controller state, invoke the wrapper
asynchronously (call A), then again before A settles (call B).  When A's
underlying promise then rejects with `e`, the world's `state.error`
remains unset (the whole state is exactly as B's invocation left it,
still loading), yet the promise A's wrapper returned rejects with the
original error `e`, so a direct awaiter of call A observes the true
outcome. -/
theorem load_error_isolation (w : LoadWorld) (hwf : WFL w) (ps1 ps2 : List Int) (e : Int) :
    ∃ p1 p2 w1 w2,
      invoke w .asyncF ps1 = (w1, .promise p1) ∧
      invoke w1 .asyncF ps2 = (w2, .promise p2) ∧
      (rejectP w2 p1 e).2 = .rej e ∧
      (rejectP w2 p1 e).1.lstate = w2.lstate ∧
      (rejectP w2 p1 e).1.lstate.error = none := by
  obtain ⟨h1, h2, h3, h4⟩ := hwf
  have hne1 : ∀ q ∈ w.pending, q.1 ≠ w.nextP := fun q hq => by
    have := h4 q hq; omega
  have hfA : findPending (afterTwoAsync w).pending w.nextP = some (some w.nextD) := by
    show findPending
      (w.pending ++ [(w.nextP, some w.nextD), (w.nextP + 1, some (w.nextD + 1))]) w.nextP = _
    rw [findPending_append _ _ _ hne1]
    simp [findPending]
  have hdA : w.nextD ∈ (afterTwoAsync w).abortedD := by
    simp [afterTwoAsync]
  have hrejA := rejectP_superseded (afterTwoAsync w) w.nextP e w.nextD hfA hdA
  refine ⟨w.nextP, w.nextP + 1, afterAsync w, afterTwoAsync w,
    invoke_async w ps1 h1, invoke_async2 w ps2 ⟨h1, h2, h3, h4⟩, ?_, ?_, ?_⟩
  · rw [hrejA]
  · rw [hrejA]
  · rw [hrejA]
    rfl

theorem load_error_isolation_witness :
    ∃ p1 p2 w1 w2,
      invoke (initLoad none) .asyncF [] = (w1, .promise p1) ∧
      invoke w1 .asyncF [] = (w2, .promise p2) ∧
      (rejectP w2 p1 7).2 = .rej 7 ∧
      (rejectP w2 p1 7).1.lstate = w2.lstate ∧
      (rejectP w2 p1 7).1.lstate.error = none :=
  load_error_isolation (initLoad none) ⟨by decide, by decide, by decide, by decide⟩ [] [] 7

end MiscHooks
